import Mathlib

/-!
Shallow embedding of the numeric core of `19_Threshold_NM_EN_Ratio_Analyzer.py`
(an ImageJ/Jython macro): top-percent intensity statistics, the
polyline-to-profile boundary mapping, the ratio policy, the standard-error
helper, and the threshold validation.  Intensity samples are modelled as lists
of rationals; the polyline mapper and the standard-error helper, which use
`math.sqrt`, are modelled over the reals.  Fallible operations (Python code
that can raise `ZeroDivisionError`) return `Option`/`Except`.
-/

/-! ## Python primitives -/

/-- Python `int(q)` on a float value: truncation toward zero. -/
def pyint (q : ℚ) : ℤ := if q < 0 then ⌈q⌉ else ⌊q⌋

/-- Python slice-endpoint normalization for a sequence of length `n`: a
negative index counts from the end, and endpoints are clamped into `[0, n]`. -/
def pyidx (n : ℕ) (i : ℤ) : ℕ := if i < 0 then (n + i).toNat else min i.toNat n

/-- Python `l[a:b]`. -/
def pyslice (l : List α) (a b : ℤ) : List α :=
  (l.take (pyidx l.length b)).drop (pyidx l.length a)

/-- Python `l[i:]`. -/
def pysliceFrom (l : List α) (i : ℤ) : List α := l.drop (pyidx l.length i)

/-- Python 2 `round`: round half away from zero (then `int(...)` is exact on
the result). -/
noncomputable def pyround (x : ℝ) : ℤ := if x < 0 then -⌊-x + 1 / 2⌋ else ⌊x + 1 / 2⌋

/-- A Python runtime error raised by the embedded code. -/
inductive PyError where
  | zeroDivisionError
deriving DecidableEq

/-! ## ThresholdStatistics (lines 358-363 and 460-466 of the source)

`sorted_values = sorted(segment_values)`;
`threshold_idx = int(len(sorted_values) * (1.0 - self.threshold_percentage / 100.0))`;
`top_values = sorted_values[threshold_idx:]`. -/

/-- The selected top values of a sample at a given threshold percentage. -/
def top_values (sample : List ℚ) (t : ℚ) : List ℚ :=
  let sorted_values := sample.insertionSort (· ≤ ·)
  let threshold_idx := pyint ((sample.length : ℚ) * (1 - t / 100))
  pysliceFrom sorted_values threshold_idx

/-- `stroke_avg = sum(top_values) / float(len(top_values))`.  The `none` case
models the `ZeroDivisionError` Python raises when the selection is empty. -/
def top_percent_mean (sample : List ℚ) (t : ℚ) : Option ℚ :=
  let tv := top_values sample t
  if tv.length = 0 then none else some (tv.sum / tv.length)

/-! ## Ratio policy (lines 256-263 and 634-648 of the source)

`'ratio': nuclear_data['overall_mean'] / cytoplasm_data['mean'] if
cytoplasm_data['mean'] > 0 else 0`. -/

/-- The nuclear/cytoplasm ratio as computed by `analyze_single_cell` and
`create_threshold_comparison_sheet`. -/
def cell_ratio (nuclear_mean cytoplasm_mean : ℚ) : ℚ :=
  if cytoplasm_mean > 0 then nuclear_mean / cytoplasm_mean else 0

/-! ## Threshold validation (lines 204-210 of the source)

`if self.threshold_percentage < 1 or self.threshold_percentage > 100:`
`    IJ.showMessage(...); return False`
`return True`. -/

/-- Whether `get_analysis_settings` accepts a threshold percentage. -/
def threshold_accepted (t : ℚ) : Bool :=
  if t < 1 ∨ t > 100 then false else true

/-! ## Standard error (`calculate_se`, lines 1265-1276 of the source) -/

/-- `calculate_se(data)`: 0 when `len(data) <= 1`, otherwise the
Bessel-corrected sample standard deviation divided by `sqrt(n)`. -/
noncomputable def calculate_se (data : List ℝ) : ℝ :=
  if data.length ≤ 1 then 0
  else
    let mean := data.sum / data.length
    let sum_squared_diff := (data.map fun x => (x - mean) ^ 2).sum
    let variance := sum_squared_diff / ((data.length : ℝ) - 1)
    let std_dev := Real.sqrt variance
    std_dev / Real.sqrt data.length

/-! ## PolylineProfileMapper (`calculate_segment_boundaries`, lines 484-507)

`dx = x_coords[i] - x_coords[i-1]`; `dy = y_coords[i] - y_coords[i-1]`;
`segment_distance = math.sqrt(dx*dx + dy*dy)`; the running total is appended
to `anchor_distances` (which starts as `[0.0]`); then for each anchor
`idx = int(round((anchor_distances[i] / total_distance) * (profile_length - 1)))`
clamped down to `profile_length - 1` when `idx >= profile_length`. -/

/-- Euclidean distance between two consecutive anchors. -/
noncomputable def segment_distance (p q : ℝ × ℝ) : ℝ :=
  Real.sqrt ((q.1 - p.1) * (q.1 - p.1) + (q.2 - p.2) * (q.2 - p.2))

/-- The distances of the successive polyline segments. -/
noncomputable def step_dists (anchors : List (ℝ × ℝ)) : List ℝ :=
  List.zipWith segment_distance anchors anchors.tail

/-- Running cumulative sums, starting from `acc` (the loop that builds
`anchor_distances` by repeatedly adding `segment_distance`). -/
noncomputable def cum_from (acc : ℝ) : List ℝ → List ℝ
  | [] => []
  | d :: ds => (acc + d) :: cum_from (acc + d) ds

/-- `anchor_distances`: cumulative Euclidean distance from the first anchor to
each anchor, starting with `0.0`. -/
noncomputable def anchor_distances (anchors : List (ℝ × ℝ)) : List ℝ :=
  0 :: cum_from 0 (step_dists anchors)

/-- `total_distance`: the final running total. -/
noncomputable def total_distance (anchors : List (ℝ × ℝ)) : ℝ :=
  (step_dists anchors).sum

open Classical in
/-- `calculate_segment_boundaries(x_coords, y_coords, profile_length)`.  When
at least one anchor exists and `total_distance` is `0.0`, the first loop
iteration evaluates `0.0 / 0.0`, which raises `ZeroDivisionError` in Python;
with no anchors the loop body never runs and `[]` is returned. -/
noncomputable def calculate_segment_boundaries (anchors : List (ℝ × ℝ))
    (profile_length : ℤ) : Except PyError (List ℤ) :=
  if anchors.length = 0 then .ok []
  else if total_distance anchors = 0 then .error .zeroDivisionError
  else .ok <| (anchor_distances anchors).map fun d =>
    let idx := pyround (d / total_distance anchors * (profile_length - 1))
    if profile_length ≤ idx then profile_length - 1 else idx

/-! ## Nuclear-membrane segment loop (lines 344-386 of the source)

For each consecutive boundary pair, `segment_values =
full_profile[start_idx:end_idx + 1]`; empty segments are skipped
(`continue`); otherwise the top-percent mean of the segment is appended to
`stroke_averages`; finally `overall_mean = sum(stroke_averages) /
float(len(stroke_averages))`, with `None` returned when no segment was
processed. -/

/-- The per-segment loop body of `measure_nuclear_membrane_detailed` (also
`recalculate_nuclear_mean_with_threshold`), over the list of consecutive
boundary pairs.  `none` models a raised `ZeroDivisionError`. -/
def stroke_averages_from (profile : List ℚ) (t : ℚ) : List (ℤ × ℤ) → Option (List ℚ)
  | [] => some []
  | (a, b) :: rest =>
    let seg := pyslice profile a (b + 1)
    if seg.length = 0 then stroke_averages_from profile t rest
    else
      match top_percent_mean seg t, stroke_averages_from profile t rest with
      | some m, some others => some (m :: others)
      | _, _ => none

/-- The overall nuclear-membrane mean computed by
`measure_nuclear_membrane_detailed` from a profile, its segment boundaries
and the threshold percentage. -/
def measure_nuclear_overall (profile : List ℚ) (boundaries : List ℤ) (t : ℚ) :
    Option ℚ :=
  match stroke_averages_from profile t (boundaries.zip boundaries.tail) with
  | none => none
  | some sa => if sa.length = 0 then none else some (sa.sum / sa.length)

/-! ## Lemmas about the top-percent selection -/

lemma pyint_of_nonneg {q : ℚ} (h : 0 ≤ q) : pyint q = ⌊q⌋ := by
  simp [pyint, not_lt.mpr h]

lemma threshold_cut_nonneg {n : ℕ} {t : ℚ} (ht1 : t ≤ 100) :
    0 ≤ (n : ℚ) * (1 - t / 100) := by
  have : 0 ≤ 1 - t / 100 := by linarith
  positivity

lemma threshold_cut_lt {n : ℕ} {t : ℚ} (hn : 0 < n) (ht0 : 0 < t) :
    ⌊(n : ℚ) * (1 - t / 100)⌋ < (n : ℤ) := by
  rw [Int.floor_lt]
  push_cast
  have h1 : (1 : ℚ) - t / 100 < 1 := by linarith
  have hn' : (0 : ℚ) < n := by exact_mod_cast hn
  calc (n : ℚ) * (1 - t / 100) < (n : ℚ) * 1 := by
        exact mul_lt_mul_of_pos_left h1 hn'
    _ = n := mul_one _

lemma top_values_eq_drop (sample : List ℚ) (t : ℚ) (hne : sample ≠ [])
    (ht0 : 0 < t) (ht1 : t ≤ 100) :
    top_values sample t
      = (sample.insertionSort (· ≤ ·)).drop
          (⌊(sample.length : ℚ) * (1 - t / 100)⌋.toNat) := by
  have hlen : 0 < sample.length := List.length_pos.mpr hne
  have hq : 0 ≤ (sample.length : ℚ) * (1 - t / 100) := threshold_cut_nonneg ht1
  have hcut := threshold_cut_lt hlen ht0 (t := t)
  have hfloor : 0 ≤ ⌊(sample.length : ℚ) * (1 - t / 100)⌋ := Int.floor_nonneg.mpr hq
  have hsortlen : (sample.insertionSort (· ≤ ·)).length = sample.length :=
    (List.perm_insertionSort _ _).length_eq
  simp only [top_values, pysliceFrom, pyidx, pyint_of_nonneg hq, hfloor.not_lt,
    if_false]
  congr 1
  rw [hsortlen]
  omega

lemma top_values_length (sample : List ℚ) (t : ℚ) (hne : sample ≠ [])
    (ht0 : 0 < t) (ht1 : t ≤ 100) :
    (top_values sample t).length
      = sample.length - ⌊(sample.length : ℚ) * (1 - t / 100)⌋.toNat := by
  rw [top_values_eq_drop sample t hne ht0 ht1, List.length_drop,
    (List.perm_insertionSort _ _).length_eq]

lemma top_values_ne_nil (sample : List ℚ) (t : ℚ) (hne : sample ≠ [])
    (ht0 : 0 < t) (ht1 : t ≤ 100) : top_values sample t ≠ [] := by
  have hlen : 0 < sample.length := List.length_pos.mpr hne
  have hcut := threshold_cut_lt hlen ht0 (t := t)
  have h := top_values_length sample t hne ht0 ht1
  intro hnil
  rw [hnil] at h
  simp at h
  omega

lemma top_percent_mean_eq_some (sample : List ℚ) (t : ℚ) (hne : sample ≠ [])
    (ht0 : 0 < t) (ht1 : t ≤ 100) :
    top_percent_mean sample t
      = some ((top_values sample t).sum / ((top_values sample t).length : ℚ)) := by
  have h := top_values_ne_nil sample t hne ht0 ht1
  unfold top_percent_mean
  rw [if_neg (by simpa [List.length_eq_zero] using h)]

/-- C1: for every non-empty sample of intensities and threshold t in (0, 100],
the top-percent-mean computation sorts the sample ascending, selects the
suffix from index cut = floor(len * (1 - t/100)) (the highest-valued
len - cut elements, ties broken by sort order), and returns
sum(top_values) / len(top_values). -/
theorem C1_top_percent_mean_formula (sample : List ℚ) (t : ℚ)
    (hne : sample ≠ []) (ht0 : 0 < t) (ht1 : t ≤ 100) :
    ∃ sorted_values : List ℚ,
      sorted_values.Sorted (· ≤ ·) ∧ sample.Perm sorted_values ∧
      top_values sample t
        = sorted_values.drop (⌊(sample.length : ℚ) * (1 - t / 100)⌋.toNat) ∧
      (top_values sample t).length
        = sample.length - ⌊(sample.length : ℚ) * (1 - t / 100)⌋.toNat ∧
      top_percent_mean sample t
        = some ((top_values sample t).sum / ((top_values sample t).length : ℚ)) := by
  refine ⟨sample.insertionSort (· ≤ ·), List.sorted_insertionSort _ _,
    (List.perm_insertionSort _ _).symm, top_values_eq_drop sample t hne ht0 ht1,
    top_values_length sample t hne ht0 ht1,
    top_percent_mean_eq_some sample t hne ht0 ht1⟩

/-- C1 witness: the theorem applied to the sample [2, 1] with threshold 50. -/
theorem C1_top_percent_mean_formula_witness :
    (([2, 1] : List ℚ) ≠ [] ∧ (0 : ℚ) < 50 ∧ (50 : ℚ) ≤ 100) ∧
    ∃ sorted_values : List ℚ,
      sorted_values.Sorted (· ≤ ·) ∧ ([2, 1] : List ℚ).Perm sorted_values ∧
      top_values [2, 1] 50
        = sorted_values.drop (⌊(([2, 1] : List ℚ).length : ℚ) * (1 - 50 / 100)⌋.toNat) ∧
      (top_values [2, 1] 50).length
        = ([2, 1] : List ℚ).length - ⌊(([2, 1] : List ℚ).length : ℚ) * (1 - 50 / 100)⌋.toNat ∧
      top_percent_mean [2, 1] 50
        = some ((top_values [2, 1] 50).sum / ((top_values [2, 1] 50).length : ℚ)) :=
  ⟨⟨by decide, by norm_num, by norm_num⟩,
    C1_top_percent_mean_formula [2, 1] 50 (by decide) (by norm_num) (by norm_num)⟩

/-- C4: for every non-empty sample and threshold in (0, 100], the cut index
int(len * (1 - t/100)) equals floor(len * (1 - t/100)) and is strictly less
than len, the selected top values are non-empty, and the mean computation
succeeds (the empty-selection division-by-zero case is unreachable). -/
theorem C4_top_selection_safe (sample : List ℚ) (t : ℚ)
    (hne : sample ≠ []) (ht0 : 0 < t) (ht1 : t ≤ 100) :
    pyint ((sample.length : ℚ) * (1 - t / 100))
        = ⌊(sample.length : ℚ) * (1 - t / 100)⌋ ∧
    ⌊(sample.length : ℚ) * (1 - t / 100)⌋ < (sample.length : ℤ) ∧
    top_values sample t ≠ [] ∧
    ∃ m, top_percent_mean sample t = some m := by
  have hlen : 0 < sample.length := List.length_pos.mpr hne
  exact ⟨pyint_of_nonneg (threshold_cut_nonneg ht1), threshold_cut_lt hlen ht0,
    top_values_ne_nil sample t hne ht0 ht1,
    ⟨_, top_percent_mean_eq_some sample t hne ht0 ht1⟩⟩

/-- C4 witness: the theorem applied to the sample [3] with threshold 100. -/
theorem C4_top_selection_safe_witness :
    (([3] : List ℚ) ≠ [] ∧ (0 : ℚ) < 100 ∧ (100 : ℚ) ≤ 100) ∧
    (pyint ((([3] : List ℚ).length : ℚ) * (1 - 100 / 100))
        = ⌊(([3] : List ℚ).length : ℚ) * (1 - 100 / 100)⌋ ∧
     ⌊(([3] : List ℚ).length : ℚ) * (1 - 100 / 100)⌋ < (([3] : List ℚ).length : ℤ) ∧
     top_values [3] 100 ≠ [] ∧
     ∃ m, top_percent_mean [3] 100 = some m) :=
  ⟨⟨by decide, by norm_num, by norm_num⟩,
    C4_top_selection_safe [3] 100 (by decide) (by norm_num) (by norm_num)⟩

/-! ## Monotonicity of the top-percent mean in the threshold -/

lemma mul_length_le_sum {l : List ℚ} {a : ℚ} (h : ∀ x ∈ l, a ≤ x) :
    a * (l.length : ℚ) ≤ l.sum := by
  induction l with
  | nil => simp
  | cons b xs ih =>
    have hb : a ≤ b := h b (List.mem_cons_self _ _)
    have hxs : a * (xs.length : ℚ) ≤ xs.sum :=
      ih fun x hx => h x (List.mem_cons_of_mem _ hx)
    simp only [List.sum_cons, List.length_cons]
    push_cast
    linarith

lemma sorted_drop_mean_step (L : List ℚ) (hs : L.Sorted (· ≤ ·)) (c : ℕ)
    (h : c + 1 < L.length) :
    (L.drop c).sum / ((L.drop c).length : ℚ)
      ≤ (L.drop (c + 1)).sum / ((L.drop (c + 1)).length : ℚ) := by
  have hc : c < L.length := Nat.lt_of_succ_lt h
  have hdrop : L.drop c = L[c] :: L.drop (c + 1) := List.drop_eq_getElem_cons hc
  have hm : 0 < (L.drop (c + 1)).length := by
    rw [List.length_drop]; omega
  have hsorted : (L.drop c).Sorted (· ≤ ·) :=
    List.Pairwise.sublist (List.drop_sublist _ _) hs
  rw [hdrop] at hsorted
  have ha : ∀ x ∈ L.drop (c + 1), L[c] ≤ x :=
    (List.sorted_cons.mp hsorted).1
  have hsum := mul_length_le_sum ha
  rw [hdrop]
  simp only [List.sum_cons, List.length_cons]
  have hmq : 0 < ((L.drop (c + 1)).length : ℚ) := by exact_mod_cast hm
  rw [div_le_div_iff₀ (by push_cast; linarith) hmq]
  push_cast
  nlinarith [hsum]

lemma sorted_drop_mean_mono (L : List ℚ) (hs : L.Sorted (· ≤ ·)) {c c' : ℕ}
    (hcc : c ≤ c') (hc' : c' < L.length) :
    (L.drop c).sum / ((L.drop c).length : ℚ)
      ≤ (L.drop c').sum / ((L.drop c').length : ℚ) := by
  induction c', hcc using Nat.le_induction with
  | base => exact le_rfl
  | succ d hd ih =>
    exact le_trans (ih (Nat.lt_of_succ_lt hc')) (sorted_drop_mean_step L hs d hc')

/-- C6: the top-percent mean is monotone in the threshold: for a non-empty
sample and thresholds t1 <= t2 in (0, 100], the mean at t1 is at least the
mean at t2; moreover on [1..10] threshold 100 gives 5.5, threshold 50 gives
8.0 and threshold 10 gives 10.0. -/
theorem C6_mean_monotone_in_threshold :
    (∀ (S : List ℚ) (t1 t2 m1 m2 : ℚ), S ≠ [] → 0 < t1 → t1 ≤ t2 → t2 ≤ 100 →
        top_percent_mean S t1 = some m1 → top_percent_mean S t2 = some m2 →
        m2 ≤ m1) ∧
    top_percent_mean [1, 2, 3, 4, 5, 6, 7, 8, 9, 10] 100 = some (11 / 2) ∧
    top_percent_mean [1, 2, 3, 4, 5, 6, 7, 8, 9, 10] 50 = some 8 ∧
    top_percent_mean [1, 2, 3, 4, 5, 6, 7, 8, 9, 10] 10 = some 10 := by
  refine ⟨?_, ?_, ?_, ?_⟩
  · intro S t1 t2 m1 m2 hne ht1 h12 ht2 hm1 hm2
    have ht1' : t1 ≤ 100 := le_trans h12 ht2
    have ht2' : 0 < t2 := lt_of_lt_of_le ht1 h12
    set L := S.insertionSort (· ≤ ·) with hL
    have hlen : 0 < S.length := List.length_pos.mpr hne
    have hsorted : L.Sorted (· ≤ ·) := List.sorted_insertionSort _ _
    have hLlen : L.length = S.length := (List.perm_insertionSort _ _).length_eq
    set c1 := ⌊(S.length : ℚ) * (1 - t1 / 100)⌋.toNat with hc1
    set c2 := ⌊(S.length : ℚ) * (1 - t2 / 100)⌋.toNat with hc2
    have e1 : top_percent_mean S t1
        = some ((L.drop c1).sum / ((L.drop c1).length : ℚ)) := by
      rw [top_percent_mean_eq_some S t1 hne ht1 ht1',
        top_values_eq_drop S t1 hne ht1 ht1']
    have e2 : top_percent_mean S t2
        = some ((L.drop c2).sum / ((L.drop c2).length : ℚ)) := by
      rw [top_percent_mean_eq_some S t2 hne ht2' ht2,
        top_values_eq_drop S t2 hne ht2' ht2]
    rw [hm1] at e1
    rw [hm2] at e2
    have hm1' : m1 = (L.drop c1).sum / ((L.drop c1).length : ℚ) :=
      Option.some.inj e1
    have hm2' : m2 = (L.drop c2).sum / ((L.drop c2).length : ℚ) :=
      Option.some.inj e2
    have hfloor_le : ⌊(S.length : ℚ) * (1 - t2 / 100)⌋
        ≤ ⌊(S.length : ℚ) * (1 - t1 / 100)⌋ := by
      apply Int.floor_le_floor
      have : 1 - t2 / 100 ≤ 1 - t1 / 100 := by linarith
      exact mul_le_mul_of_nonneg_left this (by positivity)
    have hcc : c2 ≤ c1 := by omega
    have hcut1 : c1 < L.length := by
      have := threshold_cut_lt hlen ht1 (t := t1)
      omega
    rw [hm1', hm2']
    exact sorted_drop_mean_mono L hsorted hcc hcut1
  · norm_num [top_percent_mean, top_values, pysliceFrom, pyidx, pyint,
      List.insertionSort, List.orderedInsert, Int.toNat_ofNat, List.drop]
  · norm_num [top_percent_mean, top_values, pysliceFrom, pyidx, pyint,
      List.insertionSort, List.orderedInsert, Int.toNat_ofNat, List.drop]
  · norm_num [top_percent_mean, top_values, pysliceFrom, pyidx, pyint,
      List.insertionSort, List.orderedInsert, Int.toNat_ofNat, List.drop]

/-- C6 witness: monotonicity applied to the sample [1..10] with thresholds
50 and 100, using the concrete means 8 and 5.5. -/
theorem C6_mean_monotone_in_threshold_witness :
    (([1, 2, 3, 4, 5, 6, 7, 8, 9, 10] : List ℚ) ≠ [] ∧ (0 : ℚ) < 50 ∧
      (50 : ℚ) ≤ 100 ∧ (100 : ℚ) ≤ 100) ∧ (11 / 2 : ℚ) ≤ 8 :=
  ⟨⟨by decide, by norm_num, by norm_num, by norm_num⟩,
    C6_mean_monotone_in_threshold.1 [1, 2, 3, 4, 5, 6, 7, 8, 9, 10] 50 100 8
      (11 / 2) (by decide) (by norm_num) (by norm_num) (by norm_num)
      C6_mean_monotone_in_threshold.2.2.1 C6_mean_monotone_in_threshold.2.1⟩

/-! ## Ratio policy and threshold validation -/

/-- C5 counterexample: at nuclear mean 5 and cytoplasm mean -1 the code
returns 0, not the quotient 5 / (-1) = -5 that the claim's general clause
demands for every non-zero cytoplasm mean. -/
theorem C5_ratio_counterexample : cell_ratio 5 (-1) ≠ 5 / (-1) := by
  norm_num [cell_ratio]

/-- C5 amended: the ratio equals nuclear mean divided by cytoplasm mean when
the cytoplasm mean is positive, and equals 0 whenever the cytoplasm mean is
non-positive (in particular when it is 0); no exception is raised, and
ratio(5.0, 0.0) = 0. -/
theorem C5_ratio_policy_amended :
    (∀ nuclear_mean cytoplasm_mean : ℚ,
        (0 < cytoplasm_mean →
          cell_ratio nuclear_mean cytoplasm_mean
            = nuclear_mean / cytoplasm_mean) ∧
        (cytoplasm_mean ≤ 0 → cell_ratio nuclear_mean cytoplasm_mean = 0)) ∧
    cell_ratio 5 0 = 0 := by
  refine ⟨fun n c => ⟨fun h => ?_, fun h => ?_⟩, ?_⟩
  · simp [cell_ratio, h]
  · simp [cell_ratio, h.not_lt]
  · norm_num [cell_ratio]

/-- C5 witness: the amended theorem applied at nuclear mean 5, cytoplasm
mean 2. -/
theorem C5_ratio_policy_amended_witness :
    (0 : ℚ) < 2 ∧ cell_ratio 5 2 = 5 / 2 :=
  ⟨by norm_num, (C5_ratio_policy_amended.1 5 2).1 (by norm_num)⟩

/-- C9 counterexample: the threshold 1/2 lies in (0, 100] but the validation
in get_analysis_settings rejects it. -/
theorem C9_threshold_counterexample :
    (0 : ℚ) < 1 / 2 ∧ (1 / 2 : ℚ) ≤ 100 ∧ threshold_accepted (1 / 2) = false := by
  refine ⟨by norm_num, by norm_num, ?_⟩
  norm_num [threshold_accepted]

/-- C9 amended: the validation accepts exactly the thresholds in the closed
interval [1, 100]: values below 1 or above 100 are rejected. -/
theorem C9_threshold_validation_amended :
    ∀ t : ℚ, threshold_accepted t = true ↔ 1 ≤ t ∧ t ≤ 100 := by
  intro t
  by_cases h : t < 1 ∨ t > 100
  · simp only [threshold_accepted, if_pos h]
    simp only [Bool.false_eq_true, false_iff]
    intro hc
    rcases h with h | h <;> linarith [hc.1, hc.2]
  · simp only [threshold_accepted, if_neg h]
    push_neg at h
    simp only [true_iff]
    exact ⟨h.1, h.2⟩

/-! ## Standard error -/

/-- C8: calculate_se returns 0 when the sequence has at most one element, and
otherwise the Bessel-corrected sample standard deviation (divisor n-1)
divided by sqrt(n); on [2, 4, 6] it returns 2 / sqrt(3). -/
theorem C8_standard_error :
    (∀ data : List ℝ, data.length ≤ 1 → calculate_se data = 0) ∧
    (∀ data : List ℝ, 2 ≤ data.length →
        calculate_se data
          = Real.sqrt
              ((data.map fun x => (x - data.sum / data.length) ^ 2).sum
                / ((data.length : ℝ) - 1))
            / Real.sqrt (data.length : ℝ)) ∧
    calculate_se [2, 4, 6] = 2 / Real.sqrt 3 := by
  refine ⟨fun data h => by simp [calculate_se, h], fun data h => ?_, ?_⟩
  · rw [calculate_se, if_neg (by omega)]
  · have h1 : calculate_se [2, 4, 6] = Real.sqrt 4 / Real.sqrt 3 := by
      rw [calculate_se]
      norm_num
    rw [h1, show (4 : ℝ) = 2 ^ 2 by norm_num,
      Real.sqrt_sq (by norm_num : (0 : ℝ) ≤ 2)]

/-- C8 witness: the theorem applied to the empty sequence and to a
singleton. -/
theorem C8_standard_error_witness :
    (([] : List ℝ).length ≤ 1 ∧ calculate_se [] = 0) ∧
    (([7] : List ℝ).length ≤ 1 ∧ calculate_se [7] = 0) :=
  ⟨⟨by decide, C8_standard_error.1 [] (by decide)⟩,
    ⟨by decide, C8_standard_error.1 [7] (by decide)⟩⟩

/-! ## Closed-interval segment slicing -/

lemma pyslice_eq_take_drop (l : List ℚ) (x y : ℤ) (hx : 0 ≤ x) (hxy : x ≤ y)
    (hy : y < (l.length : ℤ)) :
    pyslice l x (y + 1) = (l.take (y.toNat + 1)).drop x.toNat := by
  unfold pyslice pyidx
  rw [if_neg (by omega), if_neg (by omega)]
  have h1 : min (y + 1).toNat l.length = y.toNat + 1 := by omega
  have h2 : min x.toNat l.length = x.toNat := by omega
  rw [h1, h2]

/-- C7: for valid boundaries a <= b <= c inside the profile, a segment's
values are the closed-interval slice profile[a .. b] inclusive on both ends
(length b - a + 1, element j being profile[a + j]), and the pixel at the
interior boundary b is both the last value of segment (a, b) and the first
value of segment (b, c). -/
theorem C7_segment_slice_inclusive (profile : List ℚ) (a b c : ℤ)
    (ha : 0 ≤ a) (hab : a ≤ b) (hbc : b ≤ c) (hc : c < (profile.length : ℤ)) :
    (pyslice profile a (b + 1)).length = (b - a).toNat + 1 ∧
    (∀ j : ℕ, j < (pyslice profile a (b + 1)).length →
        (pyslice profile a (b + 1))[j]? = profile[a.toNat + j]?) ∧
    (pyslice profile a (b + 1)).getLast? = profile[b.toNat]? ∧
    (pyslice profile b (c + 1)).head? = profile[b.toNat]? := by
  have hb : b < (profile.length : ℤ) := lt_of_le_of_lt hbc hc
  have e1 : pyslice profile a (b + 1) = (profile.take (b.toNat + 1)).drop a.toNat :=
    pyslice_eq_take_drop profile a b ha hab hb
  have e2 : pyslice profile b (c + 1) = (profile.take (c.toNat + 1)).drop b.toNat :=
    pyslice_eq_take_drop profile b c (le_trans ha hab) hbc hc
  have hlen1 : (pyslice profile a (b + 1)).length = (b - a).toNat + 1 := by
    rw [e1, List.length_drop, List.length_take]
    omega
  have hget : ∀ j : ℕ, j < (pyslice profile a (b + 1)).length →
      (pyslice profile a (b + 1))[j]? = profile[a.toNat + j]? := by
    intro j hj
    rw [hlen1] at hj
    rw [e1, List.getElem?_drop, List.getElem?_take_of_lt (by omega)]
  refine ⟨hlen1, hget, ?_, ?_⟩
  · rw [List.getLast?_eq_getElem?, hget _ (by omega), hlen1]
    congr 1
    omega
  · have hlen2 : (pyslice profile b (c + 1)).length = (c - b).toNat + 1 := by
      rw [e2, List.length_drop, List.length_take]
      omega
    rw [List.head?_eq_getElem?, e2, List.getElem?_drop,
      List.getElem?_take_of_lt (by omega)]
    congr 1

/-- C7 witness: the theorem applied to the profile [10, 20, 30, 40, 50] with
boundaries 0, 2, 4: the pixel at index 2 belongs to both segments. -/
theorem C7_segment_slice_inclusive_witness :
    ((0 : ℤ) ≤ 0 ∧ (0 : ℤ) ≤ 2 ∧ (2 : ℤ) ≤ 4 ∧
      (4 : ℤ) < (([10, 20, 30, 40, 50] : List ℚ).length : ℤ)) ∧
    ((pyslice ([10, 20, 30, 40, 50] : List ℚ) 0 (2 + 1)).length
        = ((2 : ℤ) - 0).toNat + 1 ∧
     (∀ j : ℕ, j < (pyslice ([10, 20, 30, 40, 50] : List ℚ) 0 (2 + 1)).length →
        (pyslice ([10, 20, 30, 40, 50] : List ℚ) 0 (2 + 1))[j]?
          = ([10, 20, 30, 40, 50] : List ℚ)[(0 : ℤ).toNat + j]?) ∧
     (pyslice ([10, 20, 30, 40, 50] : List ℚ) 0 (2 + 1)).getLast?
        = ([10, 20, 30, 40, 50] : List ℚ)[(2 : ℤ).toNat]? ∧
     (pyslice ([10, 20, 30, 40, 50] : List ℚ) 2 (4 + 1)).head?
        = ([10, 20, 30, 40, 50] : List ℚ)[(2 : ℤ).toNat]?) :=
  ⟨⟨by decide, by decide, by decide, by decide⟩,
    C7_segment_slice_inclusive [10, 20, 30, 40, 50] 0 2 4
      (by decide) (by decide) (by decide) (by decide)⟩

/-! ## The overall nuclear-membrane mean -/

lemma stroke_averages_from_eq (profile : List ℚ) (t : ℚ)
    (pairs : List (ℤ × ℤ)) :
    stroke_averages_from profile t pairs
      = ((pairs.map fun p => pyslice profile p.1 (p.2 + 1)).filter
          fun s => !(s.length == 0)).mapM fun s => top_percent_mean s t := by
  induction pairs with
  | nil => rfl
  | cons p rest ih =>
    obtain ⟨a, b⟩ := p
    simp only [stroke_averages_from, List.map_cons, List.filter_cons]
    by_cases h : (pyslice profile a (b + 1)).length = 0
    · simp [h, ih]
    · have hb : (!((pyslice profile a (b + 1)).length == 0)) = true := by
        simp [h]
      simp only [h, if_false, hb, if_true, List.mapM_cons, ih]
      cases top_percent_mean (pyslice profile a (b + 1)) t with
      | none => simp
      | some m =>
        cases ((rest.map fun p => pyslice profile p.1 (p.2 + 1)).filter
            fun s => !(s.length == 0)).mapM fun s => top_percent_mean s t with
        | none => simp
        | some others => simp

lemma mapM_some_of_forall (f : α → Option β) (l : List α)
    (h : ∀ x ∈ l, ∃ y, f x = some y) :
    ∃ ys : List β, l.mapM f = some ys ∧ ys.length = l.length := by
  induction l with
  | nil => exact ⟨[], rfl, rfl⟩
  | cons x xs ih =>
    obtain ⟨y, hy⟩ := h x (List.mem_cons_self _ _)
    obtain ⟨ys, hys, hlen⟩ := ih fun z hz => h z (List.mem_cons_of_mem _ hz)
    refine ⟨y :: ys, ?_, by simp [hlen]⟩
    rw [List.mapM_cons, hy, hys]
    rfl

/-- C10: for a completed nuclear-membrane measurement with at least one
non-empty segment and a threshold in (0, 100], the overall mean is the
unweighted arithmetic mean of the per-segment top-percent means: each
non-empty segment contributes exactly one mean (regardless of its pixel
count) and empty segments are skipped rather than contributing a zero
term. -/
theorem C10_overall_unweighted_mean (profile : List ℚ) (boundaries : List ℤ)
    (t : ℚ) (ht0 : 0 < t) (ht1 : t ≤ 100)
    (hne : ((boundaries.zip boundaries.tail).map
        fun p => pyslice profile p.1 (p.2 + 1)).filter
          (fun s => !(s.length == 0)) ≠ []) :
    ∃ means : List ℚ,
      (((boundaries.zip boundaries.tail).map
          fun p => pyslice profile p.1 (p.2 + 1)).filter
            (fun s => !(s.length == 0))).mapM (fun s => top_percent_mean s t)
        = some means ∧
      means.length
        = (((boundaries.zip boundaries.tail).map
            fun p => pyslice profile p.1 (p.2 + 1)).filter
              (fun s => !(s.length == 0))).length ∧
      means ≠ [] ∧
      measure_nuclear_overall profile boundaries t
        = some (means.sum / (means.length : ℚ)) := by
  have hall : ∀ s ∈ ((boundaries.zip boundaries.tail).map
      fun p => pyslice profile p.1 (p.2 + 1)).filter
        (fun s => !(s.length == 0)), ∃ m, top_percent_mean s t = some m := by
    intro s hs
    have hpred := (List.mem_filter.mp hs).2
    have hsne : s ≠ [] := by
      simp only [bne_iff_ne, ne_eq, Bool.not_eq_true'] at hpred
      intro h0
      rw [h0] at hpred
      simp at hpred
    exact ⟨_, top_percent_mean_eq_some s t hsne ht0 ht1⟩
  obtain ⟨means, hm, hlen⟩ := mapM_some_of_forall _ _ hall
  have hm0 : means ≠ [] := by
    intro h0
    rw [h0] at hlen
    exact hne (List.length_eq_zero.mp hlen.symm)
  refine ⟨means, hm, hlen, hm0, ?_⟩
  have hlen0 : means.length ≠ 0 := fun h0 => hm0 (List.length_eq_zero.mp h0)
  unfold measure_nuclear_overall
  rw [stroke_averages_from_eq, hm]
  simp [hlen0]

/-- C10 witness: the theorem applied to the profile [1, 2, 3, 4] with
boundaries [0, 2, 3] and threshold 50. -/
theorem C10_overall_unweighted_mean_witness :
    ((0 : ℚ) < 50 ∧ (50 : ℚ) ≤ 100 ∧
      ((([0, 2, 3] : List ℤ).zip ([0, 2, 3] : List ℤ).tail).map
          (fun p => pyslice ([1, 2, 3, 4] : List ℚ) p.1 (p.2 + 1))).filter
            (fun s => !(s.length == 0)) ≠ []) ∧
    ∃ means : List ℚ,
      (((([0, 2, 3] : List ℤ).zip ([0, 2, 3] : List ℤ).tail).map
          fun p => pyslice ([1, 2, 3, 4] : List ℚ) p.1 (p.2 + 1)).filter
            (fun s => !(s.length == 0))).mapM (fun s => top_percent_mean s 50)
        = some means ∧
      means.length
        = (((([0, 2, 3] : List ℤ).zip ([0, 2, 3] : List ℤ).tail).map
            fun p => pyslice ([1, 2, 3, 4] : List ℚ) p.1 (p.2 + 1)).filter
              (fun s => !(s.length == 0))).length ∧
      means ≠ [] ∧
      measure_nuclear_overall [1, 2, 3, 4] [0, 2, 3] 50
        = some (means.sum / (means.length : ℚ)) :=
  ⟨⟨by norm_num, by norm_num, by decide⟩,
    C10_overall_unweighted_mean [1, 2, 3, 4] [0, 2, 3] 50
      (by norm_num) (by norm_num) (by decide)⟩

/-! ## Lemmas about the polyline mapper -/

lemma pyround_of_nonneg {x : ℝ} (h : 0 ≤ x) : pyround x = ⌊x + 1 / 2⌋ := by
  simp [pyround, not_lt.mpr h]

lemma pyround_nonneg {x : ℝ} (h : 0 ≤ x) : 0 ≤ pyround x := by
  rw [pyround_of_nonneg h]
  exact Int.floor_nonneg.mpr (by linarith)

lemma pyround_le_of_le {x : ℝ} {z : ℤ} (h0 : 0 ≤ x) (h : x ≤ (z : ℝ)) :
    pyround x ≤ z := by
  rw [pyround_of_nonneg h0]
  have : x + 1 / 2 < ((z + 1 : ℤ) : ℝ) := by push_cast; linarith
  have := Int.floor_lt.mpr this
  omega

lemma pyround_intCast (z : ℤ) (hz : 0 ≤ z) : pyround ((z : ℝ)) = z := by
  rw [pyround_of_nonneg (by exact_mod_cast hz), Int.floor_int_add]
  norm_num

lemma pyround_mono {x y : ℝ} (h : x ≤ y) : pyround x ≤ pyround y := by
  by_cases hx : x < 0
  · by_cases hy : y < 0
    · simp only [pyround, if_pos hx, if_pos hy]
      have : ⌊-y + 1 / 2⌋ ≤ ⌊-x + 1 / 2⌋ := Int.floor_le_floor (by linarith)
      omega
    · simp only [pyround, if_pos hx, if_neg hy]
      push_neg at hy
      have h1 : (0 : ℤ) ≤ ⌊-x + 1 / 2⌋ := Int.floor_nonneg.mpr (by linarith)
      have h2 : (0 : ℤ) ≤ ⌊y + 1 / 2⌋ := Int.floor_nonneg.mpr (by linarith)
      omega
  · push_neg at hx
    have hy : ¬y < 0 := by intro hy; linarith
    simp only [pyround, if_neg (not_lt.mpr hx), if_neg hy]
    exact Int.floor_le_floor (by linarith)

lemma cum_from_length (acc : ℝ) (ds : List ℝ) :
    (cum_from acc ds).length = ds.length := by
  induction ds generalizing acc with
  | nil => rfl
  | cons d ds ih => simp [cum_from, ih]

lemma cum_from_getLast (acc : ℝ) (ds : List ℝ) :
    (acc :: cum_from acc ds).getLast? = some (acc + ds.sum) := by
  induction ds generalizing acc with
  | nil => simp [cum_from]
  | cons d ds ih =>
    rw [cum_from, List.getLast?_cons_cons, ih]
    congr 1
    rw [List.sum_cons]
    ring

lemma cum_from_chain (acc : ℝ) (ds : List ℝ) (h : ∀ d ∈ ds, 0 ≤ d) :
    List.Chain' (· ≤ ·) (acc :: cum_from acc ds) := by
  induction ds generalizing acc with
  | nil => simp [cum_from]
  | cons d ds ih =>
    rw [cum_from, List.chain'_cons]
    refine ⟨by have := h d (List.mem_cons_self _ _); linarith, ?_⟩
    exact ih (acc + d) fun x hx => h x (List.mem_cons_of_mem _ hx)

lemma cum_from_mem_bounds (acc : ℝ) (ds : List ℝ) (h : ∀ d ∈ ds, 0 ≤ d) :
    ∀ x ∈ cum_from acc ds, acc ≤ x ∧ x ≤ acc + ds.sum := by
  induction ds generalizing acc with
  | nil => simp [cum_from]
  | cons d ds ih =>
    intro x hx
    have hd : 0 ≤ d := h d (List.mem_cons_self _ _)
    have hrest : ∀ y ∈ ds, 0 ≤ y := fun y hy => h y (List.mem_cons_of_mem _ hy)
    have hsum : 0 ≤ ds.sum := List.sum_nonneg hrest
    rw [cum_from, List.mem_cons] at hx
    rcases hx with rfl | hx
    · constructor <;> [linarith; { simp only [List.sum_cons]; linarith }]
    · obtain ⟨h1, h2⟩ := ih (acc + d) hrest x hx
      constructor <;> [linarith; { simp only [List.sum_cons]; linarith }]

lemma mem_zipWith_imp {f : α → β → γ} {l1 : List α} {l2 : List β} {x : γ}
    (h : x ∈ List.zipWith f l1 l2) : ∃ a b, x = f a b := by
  induction l1 generalizing l2 with
  | nil => simp at h
  | cons a as ih =>
    cases l2 with
    | nil => simp at h
    | cons b bs =>
      rw [List.zipWith_cons_cons, List.mem_cons] at h
      rcases h with rfl | h
      · exact ⟨a, b, rfl⟩
      · exact ih h

lemma step_dists_nonneg (anchors : List (ℝ × ℝ)) :
    ∀ d ∈ step_dists anchors, 0 ≤ d := by
  intro d hd
  obtain ⟨p, q, rfl⟩ := mem_zipWith_imp hd
  exact Real.sqrt_nonneg _

lemma step_dists_length (anchors : List (ℝ × ℝ)) :
    (step_dists anchors).length = anchors.length - 1 := by
  simp only [step_dists, List.length_zipWith, List.length_tail]
  omega

lemma total_distance_nonneg (anchors : List (ℝ × ℝ)) :
    0 ≤ total_distance anchors :=
  List.sum_nonneg (step_dists_nonneg anchors)

lemma anchor_distances_mem_bounds (anchors : List (ℝ × ℝ)) :
    ∀ x ∈ anchor_distances anchors, 0 ≤ x ∧ x ≤ total_distance anchors := by
  intro x hx
  rw [anchor_distances, List.mem_cons] at hx
  rcases hx with rfl | hx
  · exact ⟨le_rfl, total_distance_nonneg anchors⟩
  · have := cum_from_mem_bounds 0 (step_dists anchors) (step_dists_nonneg anchors) x hx
    simpa [total_distance] using this

/-- C2: for at least two anchors with positive total arc length and a
positive profile length, calculate_segment_boundaries succeeds and returns
one entry per anchor, each equal to round(D(i) / D(n-1) * (profile_length -
1)) clamped into [0, profile_length - 1] (D being the cumulative Euclidean
distance list, whose last entry is the total), and the sequence is
non-decreasing with first element 0 and last element profile_length - 1. -/
theorem C2_segment_boundaries_spec (anchors : List (ℝ × ℝ)) (L : ℤ)
    (h2 : 2 ≤ anchors.length) (hpos : 0 < total_distance anchors) (hL : 1 ≤ L) :
    ∃ bs : List ℤ,
      calculate_segment_boundaries anchors L = .ok bs ∧
      bs = (anchor_distances anchors).map
        (fun d => max 0 (min (L - 1)
          (pyround (d / total_distance anchors * ((L : ℝ) - 1))))) ∧
      bs.length = anchors.length ∧
      (anchor_distances anchors).getLast? = some (total_distance anchors) ∧
      bs.Chain' (· ≤ ·) ∧
      bs.head? = some 0 ∧
      bs.getLast? = some (L - 1) := by
  have hTne : total_distance anchors ≠ 0 := ne_of_gt hpos
  have hL1 : (0 : ℤ) ≤ L - 1 := by omega
  have hL1R : (0 : ℝ) ≤ (L : ℝ) - 1 := by
    have : (1 : ℝ) ≤ (L : ℝ) := by exact_mod_cast hL
    linarith
  have hpy0 : pyround (0 : ℝ) = 0 := by
    have := pyround_intCast 0 le_rfl
    simpa using this
  have hpyL : pyround ((L : ℝ) - 1) = L - 1 := by
    have hcast : ((L : ℝ) - 1) = ((L - 1 : ℤ) : ℝ) := by push_cast; ring
    rw [hcast, pyround_intCast (L - 1) hL1]
  have hval : ∀ d ∈ anchor_distances anchors,
      0 ≤ pyround (d / total_distance anchors * ((L : ℝ) - 1)) ∧
        pyround (d / total_distance anchors * ((L : ℝ) - 1)) ≤ L - 1 := by
    intro d hd
    obtain ⟨hd0, hdT⟩ := anchor_distances_mem_bounds anchors d hd
    have hx0 : 0 ≤ d / total_distance anchors * ((L : ℝ) - 1) :=
      mul_nonneg (div_nonneg hd0 hpos.le) hL1R
    have hx1 : d / total_distance anchors * ((L : ℝ) - 1) ≤ ((L - 1 : ℤ) : ℝ) := by
      push_cast
      have hdT1 : d / total_distance anchors ≤ 1 := (div_le_one hpos).mpr hdT
      calc d / total_distance anchors * ((L : ℝ) - 1)
          ≤ 1 * ((L : ℝ) - 1) := mul_le_mul_of_nonneg_right hdT1 hL1R
        _ = (L : ℝ) - 1 := one_mul _
    exact ⟨pyround_nonneg hx0, pyround_le_of_le hx0 hx1⟩
  have hmapeq : (anchor_distances anchors).map
        (fun d =>
          let idx := pyround (d / total_distance anchors * ((L : ℝ) - 1))
          if L ≤ idx then L - 1 else idx)
      = (anchor_distances anchors).map
        (fun d => max 0 (min (L - 1)
          (pyround (d / total_distance anchors * ((L : ℝ) - 1))))) := by
    apply List.map_congr_left
    intro d hd
    obtain ⟨h0, h1⟩ := hval d hd
    simp only
    rw [if_neg (by omega)]
    omega
  have hcalc : calculate_segment_boundaries anchors L
      = .ok ((anchor_distances anchors).map
          (fun d => max 0 (min (L - 1)
            (pyround (d / total_distance anchors * ((L : ℝ) - 1)))))) := by
    unfold calculate_segment_boundaries
    rw [if_neg (by omega), if_neg hTne]
    exact congrArg Except.ok hmapeq
  have hlast : (anchor_distances anchors).getLast? = some (total_distance anchors) := by
    rw [anchor_distances, cum_from_getLast]
    simp [total_distance]
  refine ⟨_, hcalc, rfl, ?_, hlast, ?_, ?_, ?_⟩
  · rw [List.length_map, anchor_distances, List.length_cons, cum_from_length,
      step_dists_length]
    omega
  · have hchainD : List.Chain' (· ≤ ·) (anchor_distances anchors) := by
      rw [anchor_distances]
      exact cum_from_chain 0 _ (step_dists_nonneg anchors)
    exact List.chain'_map_of_chain' _
      (fun a b hab =>
        max_le_max le_rfl (min_le_min le_rfl (pyround_mono (by gcongr)))) hchainD
  · rw [anchor_distances]
    simp only [List.map_cons, List.head?_cons]
    congr 1
    rw [zero_div, zero_mul, hpy0]
    rw [min_eq_right hL1, max_self]
  · rw [List.getLast?_map, hlast]
    simp only [Option.map_some']
    congr 1
    rw [div_self hTne, one_mul, hpyL]
    rw [min_self, max_eq_right hL1]

lemma total_distance_example_pos :
    0 < total_distance [((0 : ℝ), (0 : ℝ)), (5, 0), (10, 0)] := by
  have h25 : (0 : ℝ) < Real.sqrt 25 := Real.sqrt_pos.mpr (by norm_num)
  have hs : total_distance [((0 : ℝ), (0 : ℝ)), (5, 0), (10, 0)]
      = Real.sqrt 25 + (Real.sqrt 25 + 0) := by
    norm_num [total_distance, step_dists, segment_distance]
  rw [hs]
  linarith

/-- C2 witness: the theorem applied to the colinear anchors (0,0), (5,0),
(10,0) and profile length 11. -/
theorem C2_segment_boundaries_spec_witness :
    (2 ≤ ([((0 : ℝ), (0 : ℝ)), (5, 0), (10, 0)] : List (ℝ × ℝ)).length ∧
      0 < total_distance [((0 : ℝ), (0 : ℝ)), (5, 0), (10, 0)] ∧
      (1 : ℤ) ≤ 11) ∧
    ∃ bs : List ℤ,
      calculate_segment_boundaries [((0 : ℝ), (0 : ℝ)), (5, 0), (10, 0)] 11
        = .ok bs ∧
      bs = (anchor_distances [((0 : ℝ), (0 : ℝ)), (5, 0), (10, 0)]).map
        (fun d => max 0 (min ((11 : ℤ) - 1)
          (pyround (d / total_distance [((0 : ℝ), (0 : ℝ)), (5, 0), (10, 0)]
            * (((11 : ℤ) : ℝ) - 1))))) ∧
      bs.length = ([((0 : ℝ), (0 : ℝ)), (5, 0), (10, 0)] : List (ℝ × ℝ)).length ∧
      (anchor_distances [((0 : ℝ), (0 : ℝ)), (5, 0), (10, 0)]).getLast?
        = some (total_distance [((0 : ℝ), (0 : ℝ)), (5, 0), (10, 0)]) ∧
      bs.Chain' (· ≤ ·) ∧
      bs.head? = some 0 ∧
      bs.getLast? = some ((11 : ℤ) - 1) :=
  ⟨⟨by decide, total_distance_example_pos, by decide⟩,
    C2_segment_boundaries_spec [((0 : ℝ), (0 : ℝ)), (5, 0), (10, 0)] 11
      (by decide) total_distance_example_pos (by decide)⟩

/-- C3: on the coincident anchors (3,3), (3,3) the code reaches the division
`anchor_distances[i] / total_distance` with `total_distance = 0.0` and raises
an uncaught ZeroDivisionError; no DegeneratePolyline error exists in the
code. -/
theorem C3_coincident_anchors_zero_division :
    calculate_segment_boundaries [((3 : ℝ), (3 : ℝ)), (3, 3)] 10
      = .error .zeroDivisionError := by
  have htot : total_distance [((3 : ℝ), (3 : ℝ)), (3, 3)] = 0 := by
    norm_num [total_distance, step_dists, segment_distance]
  unfold calculate_segment_boundaries
  rw [if_neg (by simp), if_pos htot]
